import Mathlib

/-!
Verification of the tile-mosaic assembly engine of `keyence_extractor`
(`src/tile.py`, `src/mist.py`, `src/KeyenceRun.py`, `keyence_extractor.py`),
as a shallow embedding in Lean 4.

Conventions of the embedding:
* numpy `uint16` samples are natural numbers reduced modulo `2 ^ 16`
  (`uint16` below); the numpy expression `(a + b) / 2` on `uint16` arrays
  adds with wrap-around modulo `2 ^ 16`, true-divides to float and then
  truncates on store, which on naturals below `2 ^ 16` is `((a + b) % 65536) / 2`;
* a canvas is a total function `row → col → value`; the code only ever reads
  it inside the allocated rectangle;
* Python strings are lists of characters; Python `dict`s are association
  lists whose insertion overwrites an existing key in place;
* Python floats in `position_info` are modelled as exact rationals.
-/

/-- Reduction modulo `2 ^ 16`: the value stored in a numpy `uint16` cell. -/
def uint16 (n : ℕ) : ℕ := n % 65536

/-- One iteration of the loop of `TileSequence.blend` (`src/tile.py`):
`section = output[cy : cy + th, cx : cx + tw]`, then
`section[section == 0] = im[section == 0]` followed by
`section[section != 0] = (section[section != 0] + im[section != 0]) / 2`,
with the second mask re-evaluated after the first assignment and all
arithmetic done on `uint16` samples.  `ts = (tw, th)`, `corner = (cx, cy)`. -/
def place (ts : ℕ × ℕ) (corner : ℕ × ℕ) (im : ℕ → ℕ → ℕ) (canvas : ℕ → ℕ → ℕ) :
    ℕ → ℕ → ℕ :=
  fun y x =>
    if corner.2 ≤ y ∧ y < corner.2 + ts.2 ∧ corner.1 ≤ x ∧ x < corner.1 + ts.1 then
      let v := uint16 (im (y - corner.2) (x - corner.1))
      let s1 := if canvas y x = 0 then v else canvas y x
      if s1 = 0 then s1 else uint16 (s1 + v) / 2
    else canvas y x

/-- `TileSequence.blend` (`src/tile.py`): start from a zero-filled `uint16`
buffer and place tiles `1, …, rows*cols` in ascending tile-number order. -/
def blend (rc : ℕ) (ts : ℕ × ℕ) (corners : ℕ → ℕ × ℕ) (imgs : ℕ → ℕ → ℕ → ℕ) :
    ℕ → ℕ → ℕ :=
  (List.range' 1 rc).foldl (fun canvas i => place ts (corners i) (imgs i) canvas)
    (fun _ _ => 0)

/-- Corners of the spec's two-tile blending example: tile 1 at `(0,0)`,
tile 2 at `(50,0)`, both `100 × 100`. -/
def exCorners : ℕ → ℕ × ℕ := fun i => if i = 2 then (50, 0) else (0, 0)

/-- Images of the two-tile example: tile 1 uniformly `4`, tile 2 uniformly `6`. -/
def exImgs : ℕ → ℕ → ℕ → ℕ := fun i _ _ => if i = 2 then 6 else 4

/-- The blended canvas of the spec's two-tile example. -/
def exBlend : ℕ → ℕ → ℕ := blend 2 (100, 100) exCorners exImgs

/-- Python `max` over a non-empty list (the empty case never occurs in the
source; it is given the junk value `0`). -/
def maxList (l : List ℤ) : ℤ :=
  match l with
  | [] => 0
  | h :: t => t.foldl max h

/-- `fix_origin` (`keyence_extractor.py`): take the maxima of the corner
coordinates as the new origin and map every corner `(x, y)` to
`(x_origin - x, y_origin - y)`.  The corner dictionary is modelled as a list
of `(key, (x, y))` entries; `int()` on an integer input is the identity. -/
def fix_origin (d : List (ℕ × ℤ × ℤ)) : List (ℕ × ℤ × ℤ) :=
  let x_origin := maxList (d.map (fun p => p.2.1))
  let y_origin := maxList (d.map (fun p => p.2.2))
  d.map (fun p => (p.1, x_origin - p.2.1, y_origin - p.2.2))

/-- `TileSequence.__set_full_image_size` (`src/tile.py`): starting from
`x = 0, y = 0`, fold `x = max(corner[0] + tile_size[0], x)` and
`y = max(corner[1] + tile_size[1], y)` over all corners and return
`full_size = (y, x)`, i.e. `(height, width)`.  `ts = (tw, th)`. -/
def set_full_image_size (corners : List (ℤ × ℤ)) (ts : ℤ × ℤ) : ℤ × ℤ :=
  let xy := corners.foldl
    (fun acc c => (max (c.1 + ts.1) acc.1, max (c.2 + ts.2) acc.2)) (0, 0)
  (xy.2, xy.1)

/-- `position_info` (`keyence_extractor.py`), arithmetic part: given the
stage coordinate `(x, y)`, the unscaled stage-region size `(uw, uh)` and the
original sensor size `(ow, oh)`, compute
`width_scaling_factor = ow / uw`, `height_scaling_factor = oh / uh` and
return `((x * wsf, y * hsf), (ow, oh))`.  Float arithmetic is modelled as
exact rational arithmetic. -/
def position_info (x y uw uh ow oh : ℤ) : (ℚ × ℚ) × (ℤ × ℤ) :=
  let width_scaling_factor : ℚ := (ow : ℚ) / (uw : ℚ)
  let height_scaling_factor : ℚ := (oh : ℚ) / (uh : ℚ)
  ((x * width_scaling_factor, y * height_scaling_factor), (ow, oh))

/-- The tile numbers recorded for one channel in
`KeyenceRun.__get_images` (`src/KeyenceRun.py`): the numbers of all
discovered images whose channel field equals `c`.  Images are modelled as
`(number, channel)` pairs (one per discovered file); channel names are
opaque identifiers. -/
def channel_numbers (images : List (ℕ × ℕ)) (c : ℕ) : List ℕ :=
  (images.filter (fun p => p.2 = c)).map (fun p => p.1)

/-- Channel validation of `KeyenceRun.__get_images`: a channel is valid iff
`image_numbers[channel] == set(range(1, rows * cols + 1))`, a *set*
comparison. -/
def valid_channel (images : List (ℕ × ℕ)) (rows cols c : ℕ) : Prop :=
  (channel_numbers images c).toFinset = Finset.Icc 1 (rows * cols)

instance (images : List (ℕ × ℕ)) (rows cols c : ℕ) :
    Decidable (valid_channel images rows cols c) := by
  unfold valid_channel; infer_instance

/-- Whitespace as stripped by Python `str.strip()` (the cases that can occur
in a positions report). -/
def isSpaceChar (c : Char) : Bool :=
  c = ' ' || c = '\t' || c = '\n' || c = '\r'

/-- The character class `[0-9]` of the regular expressions in the source. -/
def isDigitChar (c : Char) : Bool :=
  48 ≤ c.toNat && c.toNat ≤ 57

/-- The decimal digit character for `d` (`0` ↦ `'0'`, …, `9` ↦ `'9'`). -/
def digitChar (d : ℕ) : Char := Char.ofNat (48 + d)

/-- The numeric value of a decimal digit character. -/
def digitVal (c : Char) : ℕ := c.toNat - 48

/-- The value of a big-endian string of decimal digit characters (the way
Python `int()` reads a digit string). -/
def digitsVal (l : List Char) : ℕ :=
  l.foldl (fun a c => a * 10 + digitVal c) 0

/-- Fuel-driven decimal printer: the digits of `n`, most significant first,
empty on `0`.  Models the digit production of Python `str` on `int`. -/
def natCharsAux (fuel n : ℕ) : List Char :=
  match fuel with
  | 0 => []
  | fuel + 1 =>
    if n = 0 then [] else natCharsAux fuel (n / 10) ++ [digitChar (n % 10)]

/-- Python `str` on a non-negative `int`. -/
def natChars (n : ℕ) : List Char :=
  if n = 0 then ['0'] else natCharsAux n n

/-- Python `str` on an `int` (possibly negative), as written by MIST into
the positions report. -/
def intChars (i : ℤ) : List Char :=
  if i < 0 then '-' :: natChars i.natAbs else natChars i.natAbs

/-- Python `str.zfill(k)`: left-pad with `'0'` to length `k`. -/
def zfill (k : ℕ) (s : List Char) : List Char :=
  List.replicate (k - s.length) '0' ++ s

/-- `TILE_IMAGE_EXTENSION = ".tif"` (`src/tile.py`, `src/mist.py`). -/
def tifExtension : List Char := ['.', 't', 'i', 'f']

/-- `TileSequence.tile_fname` (`src/tile.py`):
`str(num).zfill(ZFILL_SIZE) + TILE_IMAGE_EXTENSION` with `ZFILL_SIZE = 5`. -/
def tile_fname (num : ℕ) : List Char :=
  zfill 5 (natChars num) ++ tifExtension

/-- Python `str.split(sep)` for a one-character separator: splits at every
occurrence, producing `k + 1` (possibly empty) parts for `k` separators. -/
def pySplit (sep : Char) : List Char → List (List Char)
  | [] => [[]]
  | c :: t =>
    match pySplit sep t with
    | [] => [[]]
    | h :: r => if c = sep then [] :: h :: r else (c :: h) :: r

/-- Python `str.strip()`: drop whitespace from both ends. -/
def strip (s : List Char) : List Char :=
  ((s.dropWhile isSpaceChar).reverse.dropWhile isSpaceChar).reverse

/-- `from_colon_format` (`src/mist.py`): `s.split(":")[1].strip()`.  The
out-of-range index raises in Python; this is modelled by `none`. -/
def from_colon_format (s : List Char) : Option (List Char) :=
  ((pySplit ':' s).get? 1).map strip

/-- One attempted match of the regular expression `([0-9]{5}).tif` at the
head of the string: five digits, then any character (`.` is a wildcard),
then `tif`; yields the value of the five-digit group. -/
def matchAt (s : List Char) : Option ℕ :=
  match s with
  | a :: b :: c :: d :: e :: _ :: t :: i :: f :: _ =>
    if isDigitChar a && isDigitChar b && isDigitChar c && isDigitChar d &&
        isDigitChar e && (t = 't') && (i = 'i') && (f = 'f') then
      some ((((digitVal a * 10 + digitVal b) * 10 + digitVal c) * 10 +
        digitVal d) * 10 + digitVal e)
    else none
  | _ => none

/-- `re.search`: try the pattern at every position, leftmost first. -/
def reSearch : List Char → Option ℕ
  | [] => none
  | c :: t =>
    match matchAt (c :: t) with
    | some n => some n
    | none => reSearch t

/-- `filename_to_number` (`src/mist.py`): extract the tile number as the
first match of `([0-9]{5}).tif` in the filename; no match raises in Python,
modelled by `none`. -/
def filename_to_number (s : List Char) : Option ℕ := reSearch s

/-- Parse a non-empty run of leading decimal digits, returning its value and
the rest of the string. -/
def parseNatPart (s : List Char) : Option (ℕ × List Char) :=
  let ds := s.takeWhile isDigitChar
  if ds = [] then none else some (digitsVal ds, s.dropWhile isDigitChar)

/-- Parse a (possibly negative) integer literal at the head of the string. -/
def parseInt (s : List Char) : Option (ℤ × List Char) :=
  match s with
  | [] => none
  | c :: t =>
    if c = '-' then (parseNatPart t).map (fun p => (-(p.1 : ℤ), p.2))
    else (parseNatPart (c :: t)).map (fun p => ((p.1 : ℤ), p.2))

/-- Consume one expected character at the head of the string. -/
def expectChar (c : Char) (s : List Char) : Option (List Char) :=
  match s with
  | [] => none
  | x :: t => if x = c then some t else none

/-- `ast.literal_eval` (`make_tuple` in `src/mist.py`) restricted to the only
shape MIST writes: a parenthesised pair of integer literals, with optional
interior whitespace.  Any other input raises in Python, modelled by `none`. -/
def parseTuple (s : List Char) : Option (ℤ × ℤ) := do
  let t ← expectChar '(' s
  let (x, r) ← parseInt (t.dropWhile isSpaceChar)
  let r2 ← expectChar ',' (r.dropWhile isSpaceChar)
  let (y, r3) ← parseInt (r2.dropWhile isSpaceChar)
  let r4 ← expectChar ')' (r3.dropWhile isSpaceChar)
  if r4 = [] then some (x, y) else none

/-- Python `dict` assignment `d[k] = v`: overwrite the existing entry in
place, else append. -/
def dictUpsert (k : ℕ) (v : ℤ × ℤ) (d : List (ℕ × ℤ × ℤ)) : List (ℕ × ℤ × ℤ) :=
  if d.any (fun p => p.1 = k) then
    d.map (fun p => if p.1 = k then (k, v) else p)
  else d ++ [(k, v)]

/-- Python `dict` lookup. -/
def dictGet (k : ℕ) (d : List (ℕ × ℤ × ℤ)) : Option (ℤ × ℤ) :=
  (d.find? (fun p => p.1 = k)).map (fun p => p.2)

/-- The body of the loop of `extract_corners` (`src/mist.py`) for one line:
`fields = line.strip().split(";")`,
`number = filename_to_number(from_colon_format(fields[0]))`,
`position = make_tuple(from_colon_format(fields[2]))`.  Any raised
exception (missing field, no filename match, unparsable tuple) is `none`. -/
def parseLine (line : List Char) : Option (ℕ × ℤ × ℤ) := do
  let fields := pySplit ';' (strip line)
  let f0 ← fields.get? 0
  let name ← from_colon_format f0
  let number ← filename_to_number name
  let f2 ← fields.get? 2
  let posStr ← from_colon_format f2
  let pos ← parseTuple posStr
  some (number, pos)

/-- `extract_corners` (`src/mist.py`): fold the per-line parse over the
report, entering each record into the corner dictionary with
`corners[number] = position` (overwriting on duplicate numbers); the first
raised exception aborts. -/
def extract_corners (lines : List (List Char)) : Option (List (ℕ × ℤ × ℤ)) :=
  lines.foldlM (fun d line => (parseLine line).map (fun r => dictUpsert r.1 r.2 d)) []

/-- The corner recorded for tile `k` after parsing a report. -/
def corner_of (lines : List (List Char)) (k : ℕ) : Option (ℤ × ℤ) :=
  (extract_corners lines).bind (dictGet k)

/-- One record of a well-formed MIST positions report: tile number,
correlation field text, position `(x, y)` and grid row/column. -/
structure PosRecord where
  num : ℕ
  corr : List Char
  x : ℤ
  y : ℤ
  gr : ℤ
  gc : ℤ
deriving DecidableEq

/-- The `file:` field of a report line: `file: <5-digit name>.tif`. -/
def fileField (num : ℕ) : List Char :=
  ['f', 'i', 'l', 'e', ':', ' '] ++ tile_fname num

/-- The `correlation:` field of a report line. -/
def corrField (c : List Char) : List Char :=
  [' ', 'c', 'o', 'r', 'r', 'e', 'l', 'a', 't', 'i', 'o', 'n', ':', ' '] ++ c

/-- The textual form `(x, y)` of a position or grid pair. -/
def tupleRender (x y : ℤ) : List Char :=
  '(' :: ((intChars x ++ [',', ' '] ++ intChars y) ++ [')'])

/-- The `position:` field of a report line. -/
def posField (x y : ℤ) : List Char :=
  [' ', 'p', 'o', 's', 'i', 't', 'i', 'o', 'n', ':', ' '] ++ tupleRender x y

/-- The `grid:` field of a report line. -/
def gridField (gr gc : ℤ) : List Char :=
  [' ', 'g', 'r', 'i', 'd', ':', ' '] ++ tupleRender gr gc

/-- Modelled from the spec: one line of the positions report written by the
external registration program, exactly
`file: <name>; correlation: <value>; position: (<x>, <y>); grid: (<r>, <c>);`
(spec section 6), with `<name>` the 5-digit zero-padded tile filename. -/
def renderLine (r : PosRecord) : List Char :=
  fileField r.num ++ ';' ::
    (corrField r.corr ++ ';' ::
      (posField r.x r.y ++ ';' :: (gridField r.gr r.gc ++ [';'])))

/-! ### Helper lemmas about the compositor -/

/-- Inside the tile's sub-rectangle, one placement step rewrites the pixel:
a zero canvas cell becomes `⌊(2 v mod 2^16) / 2⌋` for tile value `v`, and a
non-zero cell `c` becomes `⌊((c + v) mod 2^16) / 2⌋`. -/
theorem place_in (ts corner : ℕ × ℕ) (im canvas : ℕ → ℕ → ℕ) (y x : ℕ)
    (h1 : corner.2 ≤ y) (h2 : y < corner.2 + ts.2)
    (h3 : corner.1 ≤ x) (h4 : x < corner.1 + ts.1) :
    place ts corner im canvas y x =
      if canvas y x = 0 then
        uint16 (2 * uint16 (im (y - corner.2) (x - corner.1))) / 2
      else
        uint16 (canvas y x + uint16 (im (y - corner.2) (x - corner.1))) / 2 := by
  have hc : corner.2 ≤ y ∧ y < corner.2 + ts.2 ∧ corner.1 ≤ x ∧ x < corner.1 + ts.1 :=
    ⟨h1, h2, h3, h4⟩
  simp only [place, if_pos hc]
  by_cases h0 : canvas y x = 0
  · rw [if_pos h0, if_pos h0]
    by_cases hv : uint16 (im (y - corner.2) (x - corner.1)) = 0
    · rw [if_pos hv, hv]
      simp [uint16]
    · rw [if_neg hv, two_mul]
  · rw [if_neg h0, if_neg h0, if_neg h0]

/-- Outside the tile's sub-rectangle a placement step leaves the canvas
cell unchanged. -/
theorem place_out (ts corner : ℕ × ℕ) (im canvas : ℕ → ℕ → ℕ) (y x : ℕ)
    (h : ¬(corner.2 ≤ y ∧ y < corner.2 + ts.2 ∧ corner.1 ≤ x ∧ x < corner.1 + ts.1)) :
    place ts corner im canvas y x = canvas y x := by
  simp only [place, if_neg h]

/-- The two-tile example canvas is the second placement over the first. -/
theorem exBlend_unfold : ∀ y x : ℕ, exBlend y x =
    place (100, 100) (50, 0) (exImgs 2)
      (place (100, 100) (0, 0) (exImgs 1) (fun _ _ => 0)) y x :=
  fun _ _ => rfl

/-- C1: inside a tile's sub-rectangle the canvas pixel is updated in 16-bit
modular arithmetic: a zero canvas value becomes `⌊(2 v mod 2^16) / 2⌋`
(which equals the tile value `v` exactly when `v < 32768`), and a non-zero
canvas value `c` becomes `⌊((c + v) mod 2^16) / 2⌋` (the truncated average
whenever `c + v ≤ 65535`).  The spec's example holds: two 100×100 tiles of
uniform values 4 and 6 overlapping in a 50×100 strip blend to 5 everywhere
in the overlap, with the non-overlap regions keeping 4 and 6. -/
theorem C1_blend_update_and_example :
    (∀ (ts corner : ℕ × ℕ) (im canvas : ℕ → ℕ → ℕ) (y x : ℕ),
        corner.2 ≤ y → y < corner.2 + ts.2 → corner.1 ≤ x → x < corner.1 + ts.1 →
        place ts corner im canvas y x =
          if canvas y x = 0 then
            uint16 (2 * uint16 (im (y - corner.2) (x - corner.1))) / 2
          else
            uint16 (canvas y x + uint16 (im (y - corner.2) (x - corner.1))) / 2) ∧
    (∀ y x : ℕ, y < 100 →
      (x < 50 → exBlend y x = 4) ∧
      (50 ≤ x → x < 100 → exBlend y x = 5) ∧
      (100 ≤ x → x < 150 → exBlend y x = 6)) := by
  constructor
  · intro ts corner im canvas y x h1 h2 h3 h4
    exact place_in ts corner im canvas y x h1 h2 h3 h4
  · intro y x hy
    have hin : x < 100 →
        place (100, 100) (0, 0) (exImgs 1) (fun _ _ => 0) y x = 4 := by
      intro hx
      rw [place_in (100, 100) (0, 0) (exImgs 1) (fun _ _ => 0) y x
        (by norm_num) (by norm_num; omega) (by norm_num) (by norm_num; omega)]
      norm_num [exImgs, uint16]
    have hout : 100 ≤ x →
        place (100, 100) (0, 0) (exImgs 1) (fun _ _ => 0) y x = 0 := by
      intro hx
      rw [place_out (100, 100) (0, 0) (exImgs 1) (fun _ _ => 0) y x (by norm_num; omega)]
    refine ⟨fun hx => ?_, fun hx1 hx2 => ?_, fun hx1 hx2 => ?_⟩
    · rw [exBlend_unfold y x,
        place_out (100, 100) (50, 0) (exImgs 2) _ y x (by norm_num; omega),
        hin (by omega)]
    · rw [exBlend_unfold y x,
        place_in (100, 100) (50, 0) (exImgs 2) _ y x
          (by norm_num) (by norm_num; omega) (by norm_num; omega) (by norm_num; omega),
        hin (by omega)]
      norm_num [exImgs, uint16]
    · rw [exBlend_unfold y x,
        place_in (100, 100) (50, 0) (exImgs 2) _ y x
          (by norm_num) (by norm_num; omega) (by norm_num; omega) (by norm_num; omega),
        hout (by omega)]
      norm_num [exImgs, uint16]

/-- C1 witness: at pixel `(0, 60)` of the example the overlap blends to 5. -/
theorem C1_witness : exBlend 0 60 = 5 :=
  (C1_blend_update_and_example.2 0 60 (by norm_num)).2.1 (by norm_num) (by norm_num)

/-- C1 counterexample: a single 1×1 tile of value 32768 placed on the fresh
zero canvas leaves the pixel at 0, not 32768 as the claim's "overwrite with
the tile's pixel value" requires. -/
theorem C1_counterexample :
    blend 1 (1, 1) (fun _ => (0, 0)) (fun _ _ _ => 32768) 0 0 = 0 ∧
    (0 : ℕ) ≠ 32768 := by
  constructor
  · decide
  · decide

/-- C3 (amended): the overlap average of `TileSequence.blend` is computed in
16-bit arithmetic: for `uint16` values `a ≠ 0` (current canvas) and `b`
(tile pixel), the blended pixel is `(a + b) / 2` when `a + b ≤ 65535` but
`(a + b - 65536) / 2` when the sum wraps — there is no wider accumulator. -/
theorem C3_average_wraps_mod_uint16 :
    ∀ a b : ℕ, a < 65536 → b < 65536 → a ≠ 0 →
      place (1, 1) (0, 0) (fun _ _ => b) (fun _ _ => a) 0 0 =
        if a + b < 65536 then (a + b) / 2 else (a + b - 65536) / 2 := by
  intro a b ha hb hnz
  rw [place_in (1, 1) (0, 0) (fun _ _ => b) (fun _ _ => a) 0 0
    (by norm_num) (by norm_num) (by norm_num) (by norm_num)]
  simp only [if_neg hnz, uint16]
  have hbb : b % 65536 = b := Nat.mod_eq_of_lt hb
  rw [hbb]
  split_ifs <;> omega

/-- C3 witness: for canvas value 4 and tile value 6 the blended pixel is the
true truncated average 5. -/
theorem C3_witness :
    place (1, 1) (0, 0) (fun _ _ => 6) (fun _ _ => 4) 0 0 = 5 := by
  have h := C3_average_wraps_mod_uint16 4 6 (by norm_num) (by norm_num) (by norm_num)
  simpa using h

/-- C3 counterexample: canvas value 40000 averaged with tile value 40000
yields 7232, not the true truncated average 40000 — the 16-bit sum wraps. -/
theorem C3_counterexample :
    place (1, 1) (0, 0) (fun _ _ => 40000) (fun _ _ => 40000) 0 0 = 7232 ∧
    (40000 + 40000) / 2 = 40000 ∧ (7232 : ℕ) ≠ 40000 := by
  refine ⟨by decide, by decide, by decide⟩

/-- C10: `TileSequence.blend` iterates `range(1, rows*cols + 1)`, a strictly
ascending tile-number sequence, and the blended canvas is a deterministic
function of the grid size, tile size, corner set and tile images: equal
inputs give equal canvases. -/
theorem C10_blend_deterministic_ascending :
    (∀ rc : ℕ, List.Pairwise (· < ·) (List.range' 1 rc)) ∧
    (∀ (rc : ℕ) (ts : ℕ × ℕ) (cs cs2 : ℕ → ℕ × ℕ) (im im2 : ℕ → ℕ → ℕ → ℕ),
      cs = cs2 → im = im2 → blend rc ts cs im = blend rc ts cs2 im2) := by
  constructor
  · intro rc
    exact List.pairwise_lt_range' 1 rc
  · intro rc ts cs cs2 im im2 h1 h2
    rw [h1, h2]

/-- C10 witness: two blends of the example inputs coincide. -/
theorem C10_witness :
    blend 2 (100, 100) exCorners exImgs = blend 2 (100, 100) exCorners exImgs :=
  C10_blend_deterministic_ascending.2 2 (100, 100) exCorners exCorners
    exImgs exImgs rfl rfl

/-! ### Helper lemmas about folded maxima -/

/-- Specification of the accumulator fold `acc = max (f c) acc`. -/
theorem foldl_fmax_spec {α : Type} (f : α → ℤ) (l : List α) (a : ℤ) :
    a ≤ l.foldl (fun acc c => max (f c) acc) a ∧
    (∀ p ∈ l, f p ≤ l.foldl (fun acc c => max (f c) acc) a) ∧
    (l.foldl (fun acc c => max (f c) acc) a = a ∨
      ∃ p ∈ l, l.foldl (fun acc c => max (f c) acc) a = f p) := by
  induction l generalizing a with
  | nil => simp
  | cons h t ih =>
    simp only [List.foldl_cons]
    obtain ⟨ih1, ih2, ih3⟩ := ih (max (f h) a)
    refine ⟨le_trans (le_max_right _ _) ih1, ?_, ?_⟩
    · intro p hp
      rcases List.mem_cons.mp hp with rfl | hp
      · exact le_trans (le_max_left _ _) ih1
      · exact ih2 p hp
    · rcases ih3 with heq | ⟨p, hp, heq⟩
      · rcases le_total (f h) a with hle | hle
        · exact Or.inl (by rw [heq, max_eq_right hle])
        · exact Or.inr ⟨h, List.mem_cons_self h t, by rw [heq, max_eq_left hle]⟩
      · exact Or.inr ⟨p, List.mem_cons_of_mem h hp, heq⟩

/-- Specification of Python `max` over a list, via the fold `max acc c`. -/
theorem foldl_max_spec (l : List ℤ) (a : ℤ) :
    a ≤ l.foldl max a ∧ (∀ p ∈ l, p ≤ l.foldl max a) ∧
    (l.foldl max a = a ∨ l.foldl max a ∈ l) := by
  induction l generalizing a with
  | nil => simp
  | cons h t ih =>
    simp only [List.foldl_cons]
    obtain ⟨ih1, ih2, ih3⟩ := ih (max a h)
    refine ⟨le_trans (le_max_left _ _) ih1, ?_, ?_⟩
    · intro p hp
      rcases List.mem_cons.mp hp with rfl | hp
      · exact le_trans (le_max_right _ _) ih1
      · exact ih2 p hp
    · rcases ih3 with heq | hmem
      · rcases le_total h a with hle | hle
        · exact Or.inl (by rw [heq, max_eq_left hle])
        · refine Or.inr ?_
          rw [heq, max_eq_right hle]
          exact List.mem_cons_self h t
      · exact Or.inr (List.mem_cons_of_mem h hmem)

/-- `maxList` of a non-empty list is an upper bound attained by a member. -/
theorem maxList_spec (l : List ℤ) (hne : l ≠ []) :
    (∀ p ∈ l, p ≤ maxList l) ∧ maxList l ∈ l := by
  match l with
  | h :: t =>
    obtain ⟨h1, h2, h3⟩ := foldl_max_spec t h
    refine ⟨?_, ?_⟩
    · intro p hp
      rcases List.mem_cons.mp hp with rfl | hp
      · exact h1
      · exact h2 p hp
    · rcases h3 with heq | hmem
      · rw [maxList, heq]; exact List.mem_cons_self h t
      · exact List.mem_cons_of_mem h hmem

/-- The first component of the paired fold of `set_full_image_size`. -/
theorem fold_pair_fst (corners : List (ℤ × ℤ)) (ts : ℤ × ℤ) (a b : ℤ) :
    (corners.foldl
      (fun acc c => (max (c.1 + ts.1) acc.1, max (c.2 + ts.2) acc.2)) (a, b)).1 =
      corners.foldl (fun acc c => max (c.1 + ts.1) acc) a := by
  induction corners generalizing a b with
  | nil => rfl
  | cons h t ih => simpa using ih (max (h.1 + ts.1) a) (max (h.2 + ts.2) b)

/-- The second component of the paired fold of `set_full_image_size`. -/
theorem fold_pair_snd (corners : List (ℤ × ℤ)) (ts : ℤ × ℤ) (a b : ℤ) :
    (corners.foldl
      (fun acc c => (max (c.1 + ts.1) acc.1, max (c.2 + ts.2) acc.2)) (a, b)).2 =
      corners.foldl (fun acc c => max (c.2 + ts.2) acc) b := by
  induction corners generalizing a b with
  | nil => rfl
  | cons h t ih => simpa using ih (max (h.1 + ts.1) a) (max (h.2 + ts.2) b)

/-- C2: for a non-empty raw corner set, `fix_origin` takes `x_ref` and
`y_ref` to be the maxima of the corner coordinates (upper bounds attained by
some corner) and maps every corner `(x, y)` to `(x_ref - x, y_ref - y)`. -/
theorem C2_fix_origin_reflection :
    ∀ d : List (ℕ × ℤ × ℤ), d ≠ [] →
      (∀ p ∈ d, p.2.1 ≤ maxList (d.map (fun q => q.2.1)) ∧
        p.2.2 ≤ maxList (d.map (fun q => q.2.2))) ∧
      maxList (d.map (fun q => q.2.1)) ∈ d.map (fun q => q.2.1) ∧
      maxList (d.map (fun q => q.2.2)) ∈ d.map (fun q => q.2.2) ∧
      fix_origin d = d.map (fun p => (p.1,
        maxList (d.map (fun q => q.2.1)) - p.2.1,
        maxList (d.map (fun q => q.2.2)) - p.2.2)) := by
  intro d hne
  have hx := maxList_spec (d.map (fun q => q.2.1)) (by simpa using hne)
  have hy := maxList_spec (d.map (fun q => q.2.2)) (by simpa using hne)
  refine ⟨?_, hx.2, hy.2, rfl⟩
  intro p hp
  exact ⟨hx.1 _ (List.mem_map_of_mem _ hp), hy.1 _ (List.mem_map_of_mem _ hp)⟩

/-- C2 witness: the spec's example corner set normalizes by reflection
about the maxima. -/
theorem C2_witness :
    fix_origin [(1, 0, 0), (2, 100, 0), (3, 0, 100), (4, 100, 100)] =
      [(1, 100, 100), (2, 0, 100), (3, 100, 0), (4, 0, 0)] := by
  have h := C2_fix_origin_reflection
    [(1, 0, 0), (2, 100, 0), (3, 0, 100), (4, 100, 100)] (by decide)
  exact h.2.2.2.trans (by decide)

/-- C4: for a non-empty corner set with non-negative corners and tile size,
the canvas size computed by `__set_full_image_size` is
`(height, width)` with `height` the maximum of `corner.y + tile_height` and
`width` the maximum of `corner.x + tile_width`, each attained by a tile. -/
theorem C4_canvas_size :
    ∀ (corners : List (ℤ × ℤ)) (ts : ℤ × ℤ), corners ≠ [] →
      (∀ p ∈ corners, 0 ≤ p.1 ∧ 0 ≤ p.2) → 0 ≤ ts.1 → 0 ≤ ts.2 →
      (∀ p ∈ corners, p.2 + ts.2 ≤ (set_full_image_size corners ts).1 ∧
        p.1 + ts.1 ≤ (set_full_image_size corners ts).2) ∧
      (set_full_image_size corners ts).1 ∈ corners.map (fun p => p.2 + ts.2) ∧
      (set_full_image_size corners ts).2 ∈ corners.map (fun p => p.1 + ts.1) := by
  intro corners ts hne hnn hw hh
  obtain ⟨p0, hp0⟩ := List.exists_mem_of_ne_nil corners hne
  have hfst : (set_full_image_size corners ts).1 =
      corners.foldl (fun acc c => max (c.2 + ts.2) acc) 0 := by
    simp only [set_full_image_size]
    exact fold_pair_snd corners ts 0 0
  have hsnd : (set_full_image_size corners ts).2 =
      corners.foldl (fun acc c => max (c.1 + ts.1) acc) 0 := by
    simp only [set_full_image_size]
    exact fold_pair_fst corners ts 0 0
  obtain ⟨hy0, hy1, hy2⟩ := foldl_fmax_spec (fun c => c.2 + ts.2) corners 0
  obtain ⟨hx0, hx1, hx2⟩ := foldl_fmax_spec (fun c => c.1 + ts.1) corners 0
  refine ⟨?_, ?_, ?_⟩
  · intro p hp
    rw [hfst, hsnd]
    exact ⟨hy1 p hp, hx1 p hp⟩
  · rw [hfst]
    rcases hy2 with heq | ⟨p, hp, heq⟩
    · have hb := hy1 p0 hp0
      rw [heq] at hb
      have hnn0 := (hnn p0 hp0).2
      have hz : p0.2 + ts.2 = 0 := le_antisymm hb (by omega)
      rw [heq, ← hz]
      exact List.mem_map_of_mem _ hp0
    · rw [heq]
      exact List.mem_map_of_mem _ hp
  · rw [hsnd]
    rcases hx2 with heq | ⟨p, hp, heq⟩
    · have hb := hx1 p0 hp0
      rw [heq] at hb
      have hnn0 := (hnn p0 hp0).1
      have hz : p0.1 + ts.1 = 0 := le_antisymm hb (by omega)
      rw [heq, ← hz]
      exact List.mem_map_of_mem _ hp0
    · rw [heq]
      exact List.mem_map_of_mem _ hp

/-- C4 witness: on the 2×2 grid of 100×100 tiles the computed height is at
least 200 and is one of the per-tile extents, pinning height = 200. -/
theorem C4_witness :
    (200 : ℤ) ≤
      (set_full_image_size [(0, 0), (100, 0), (0, 100), (100, 100)] (100, 100)).1 ∧
    (set_full_image_size [(0, 0), (100, 0), (0, 100), (100, 100)] (100, 100)).1 ∈
      ([(0, 0), (100, 0), (0, 100), (100, 100)] : List (ℤ × ℤ)).map
        (fun p => p.2 + (100 : ℤ)) := by
  have h := C4_canvas_size [(0, 0), (100, 0), (0, 100), (100, 100)] (100, 100)
    (by decide) (by decide) (by decide) (by decide)
  exact ⟨by simpa using (h.1 (100, 100) (by decide)).1, by simpa using h.2.1⟩

/-- C6: `position_info` computes the independent scale factors
`ow / uw` and `oh / uh` and returns the corner `(x * scale_x, y * scale_y)`;
with stage coordinates `(0,0), (50,0), (0,50), (50,50)` and both scale
factors 2, the raw corners are `(0,0), (100,0), (0,100), (100,100)`. -/
theorem C6_metadata_resolver_scaling :
    (∀ x y uw uh ow oh : ℤ,
      (position_info x y uw uh ow oh).1 =
        ((x : ℚ) * ((ow : ℚ) / (uw : ℚ)), (y : ℚ) * ((oh : ℚ) / (uh : ℚ)))) ∧
    (position_info 0 0 50 50 100 100).1 = (0, 0) ∧
    (position_info 50 0 50 50 100 100).1 = (100, 0) ∧
    (position_info 0 50 50 50 100 100).1 = (0, 100) ∧
    (position_info 50 50 50 50 100 100).1 = (100, 100) := by
  refine ⟨fun x y uw uh ow oh => rfl, ?_, ?_, ?_, ?_⟩ <;>
    norm_num [position_info]

/-- The channel numbers of a concatenation split at an appended image. -/
theorem channel_numbers_append (l1 l2 : List (ℕ × ℕ)) (c : ℕ) :
    channel_numbers (l1 ++ l2) c = channel_numbers l1 c ++ channel_numbers l2 c := by
  simp [channel_numbers]

/-- The channel numbers of a list headed by an image of the channel. -/
theorem channel_numbers_cons_self (m c : ℕ) (l : List (ℕ × ℕ)) :
    channel_numbers ((m, c) :: l) c = m :: channel_numbers l c := by
  simp [channel_numbers]

/-- C8 (amended): `__get_images` validates a channel by *set* equality with
`{1, …, rows*cols}`: a channel is valid iff every present tile number lies
in `1..rows*cols` and every number in that range is present at least once
(duplicates collapse); and removing the only image carrying some tile number
from a valid channel invalidates it. -/
theorem C8_validation_set_equality :
    (∀ (images : List (ℕ × ℕ)) (rows cols c : ℕ),
      valid_channel images rows cols c ↔
        ∀ n : ℕ, n ∈ channel_numbers images c ↔ (1 ≤ n ∧ n ≤ rows * cols)) ∧
    (∀ (pre post : List (ℕ × ℕ)) (rows cols c m : ℕ),
      (channel_numbers (pre ++ (m, c) :: post) c).count m = 1 →
      valid_channel (pre ++ (m, c) :: post) rows cols c →
      ¬ valid_channel (pre ++ post) rows cols c) := by
  have hiff : ∀ (images : List (ℕ × ℕ)) (rows cols c : ℕ),
      valid_channel images rows cols c ↔
        ∀ n : ℕ, n ∈ channel_numbers images c ↔ (1 ≤ n ∧ n ≤ rows * cols) := by
    intro images rows cols c
    simp [valid_channel, Finset.ext_iff, Finset.mem_Icc]
  refine ⟨hiff, ?_⟩
  intro pre post rows cols c m hcount hvalid hvalid2
  have hsplit : channel_numbers (pre ++ (m, c) :: post) c =
      channel_numbers pre c ++ m :: channel_numbers post c := by
    rw [channel_numbers_append, channel_numbers_cons_self]
  have hsplit2 : channel_numbers (pre ++ post) c =
      channel_numbers pre c ++ channel_numbers post c :=
    channel_numbers_append pre post c
  rw [hsplit] at hcount
  have hpre : (channel_numbers pre c).count m = 0 ∧
      (channel_numbers post c).count m = 0 := by
    rw [List.count_append, List.count_cons_self] at hcount
    omega
  have hmem : m ∈ channel_numbers (pre ++ (m, c) :: post) c := by
    rw [hsplit]
    exact List.mem_append_right _ (List.mem_cons_self m _)
  have hrange : 1 ≤ m ∧ m ≤ rows * cols :=
    ((hiff _ rows cols c).mp hvalid m).mp hmem
  have hmem2 : m ∈ channel_numbers (pre ++ post) c :=
    ((hiff _ rows cols c).mp hvalid2 m).mpr hrange
  rw [hsplit2, List.mem_append] at hmem2
  rcases hmem2 with hmem2 | hmem2
  · exact (List.count_eq_zero.mp hpre.1) hmem2
  · exact (List.count_eq_zero.mp hpre.2) hmem2

/-- C8 witness: the complete 2×2 channel is valid, and removing the image
with tile number 2 makes it invalid. -/
theorem C8_witness :
    ¬ valid_channel [(1, 0), (3, 0), (4, 0)] 2 2 0 :=
  C8_validation_set_equality.2 [(1, 0)] [(3, 0), (4, 0)] 2 2 0 2
    (by decide) (by decide)

/-- C8 counterexample: a channel carrying tile number 1 *twice* (two files
with different prefixes) still validates, although the claim requires every
tile number to be present exactly once for validation to succeed. -/
theorem C8_counterexample :
    valid_channel [(1, 0), (1, 0), (2, 0), (3, 0), (4, 0)] 2 2 0 ∧
    (channel_numbers [(1, 0), (1, 0), (2, 0), (3, 0), (4, 0)] 0).count 1 ≠ 1 := by
  exact ⟨by decide, by decide⟩

/-! ### Helper lemmas about decimal digits and filenames -/

/-- `digitChar` inverts through `digitVal` on single digits. -/
theorem digitVal_digitChar (d : ℕ) (h : d < 10) :
    digitVal (digitChar d) = d := by
  interval_cases d <;> decide

/-- `digitChar` of a single digit is in the class `[0-9]`. -/
theorem isDigitChar_digitChar (d : ℕ) (h : d < 10) :
    isDigitChar (digitChar d) = true := by
  interval_cases d <;> decide

/-- Appending one digit multiplies the value by ten and adds the digit. -/
theorem digitsVal_append_digit (l : List Char) (c : Char) :
    digitsVal (l ++ [c]) = digitsVal l * 10 + digitVal c := by
  simp [digitsVal, List.foldl_append]

/-- A leading `'0'` does not change the value of a digit string. -/
theorem digitsVal_cons_zero (l : List Char) :
    digitsVal ('0' :: l) = digitsVal l := by
  have h : 0 * 10 + digitVal '0' = 0 := by decide
  simp only [digitsVal, List.foldl_cons, h]

/-- Left-padding with `'0'` does not change the value of a digit string. -/
theorem digitsVal_replicate_zero (k : ℕ) (l : List Char) :
    digitsVal (List.replicate k '0' ++ l) = digitsVal l := by
  induction k with
  | zero => simp
  | succ k ih => rw [List.replicate_succ, List.cons_append, digitsVal_cons_zero, ih]

/-- `natCharsAux` produces a digit string of the right value and length. -/
theorem natCharsAux_spec : ∀ fuel n : ℕ, n < 10 ^ fuel →
    digitsVal (natCharsAux fuel n) = n ∧
    (∀ k : ℕ, n < 10 ^ k → (natCharsAux fuel n).length ≤ k) ∧
    (∀ c ∈ natCharsAux fuel n, isDigitChar c = true) := by
  intro fuel
  induction fuel with
  | zero =>
    intro n hn
    have : n = 0 := by simpa using hn
    subst this
    refine ⟨rfl, fun k _ => by simp [natCharsAux], by simp [natCharsAux]⟩
  | succ fuel ih =>
    intro n hn
    by_cases h0 : n = 0
    · subst h0
      refine ⟨rfl, fun k _ => by simp [natCharsAux], by simp [natCharsAux]⟩
    · have hdiv : n / 10 < 10 ^ fuel := by
        rw [Nat.div_lt_iff_lt_mul (by norm_num)]
        calc n < 10 ^ (fuel + 1) := hn
        _ = 10 ^ fuel * 10 := by ring
      obtain ⟨ihv, ihl, ihd⟩ := ih (n / 10) hdiv
      have hunf : natCharsAux (fuel + 1) n =
          natCharsAux fuel (n / 10) ++ [digitChar (n % 10)] := by
        rw [natCharsAux, if_neg h0]
      have hmod : n % 10 < 10 := Nat.mod_lt _ (by norm_num)
      refine ⟨?_, ?_, ?_⟩
      · rw [hunf, digitsVal_append_digit, ihv, digitVal_digitChar _ hmod]
        omega
      · intro k hk
        match k with
        | 0 => exact absurd (by simpa using hk) h0
        | k + 1 =>
          have hdivk : n / 10 < 10 ^ k := by
            rw [Nat.div_lt_iff_lt_mul (by norm_num)]
            calc n < 10 ^ (k + 1) := hk
            _ = 10 ^ k * 10 := by ring
          rw [hunf]
          simp only [List.length_append, List.length_cons, List.length_nil]
          have := ihl k hdivk
          omega
      · intro c hc
        rw [hunf] at hc
        rcases List.mem_append.mp hc with hc | hc
        · exact ihd c hc
        · rw [List.mem_singleton.mp hc]
          exact isDigitChar_digitChar _ hmod

/-- `natChars` produces a digit string whose value is `n`. -/
theorem natChars_spec (n : ℕ) :
    digitsVal (natChars n) = n ∧ natChars n ≠ [] ∧
    (∀ c ∈ natChars n, isDigitChar c = true) := by
  by_cases h0 : n = 0
  · subst h0
    exact ⟨by decide, by decide, by decide⟩
  · have hfuel : n < 10 ^ n := Nat.lt_pow_self (by norm_num) n
    obtain ⟨hv, _, hd⟩ := natCharsAux_spec n n hfuel
    rw [natChars, if_neg h0]
    refine ⟨hv, ?_, hd⟩
    intro hnil
    rw [hnil] at hv
    exact h0 (by simpa [digitsVal] using hv.symm)

/-- Length bound for `natChars`. -/
theorem natChars_length_le (n k : ℕ) (h : n < 10 ^ k) (hk : 1 ≤ k) :
    (natChars n).length ≤ k := by
  by_cases h0 : n = 0
  · subst h0
    simpa [natChars] using hk
  · rw [natChars, if_neg h0]
    exact (natCharsAux_spec n n (Nat.lt_pow_self (by norm_num) n)).2.1 k h

/-- The 5-digit zero-padded name body of `tile_fname`, for `n ≤ 99999`:
exactly five digit characters whose value is `n`. -/
theorem zfill5_spec (n : ℕ) (h : n ≤ 99999) :
    (zfill 5 (natChars n)).length = 5 ∧
    digitsVal (zfill 5 (natChars n)) = n ∧
    (∀ c ∈ zfill 5 (natChars n), isDigitChar c = true) := by
  have hlt : n < 10 ^ 5 := by
    have : (10 : ℕ) ^ 5 = 100000 := by norm_num
    omega
  have hlen := natChars_length_le n 5 hlt (by norm_num)
  obtain ⟨hv, hne, hd⟩ := natChars_spec n
  refine ⟨?_, ?_, ?_⟩
  · simp only [zfill, List.length_append, List.length_replicate]
    omega
  · rw [zfill, digitsVal_replicate_zero, hv]
  · intro c hc
    rcases List.mem_append.mp hc with hc | hc
    · rw [List.eq_of_mem_replicate hc]
      decide
    · exact hd c hc

/-- Any five-character list is literally a five-element list. -/
theorem exists_five (l : List Char) (h : l.length = 5) :
    ∃ a b c d e : Char, l = [a, b, c, d, e] := by
  rcases l with _ | ⟨a, l⟩
  · simp at h
  rcases l with _ | ⟨b, l⟩
  · simp at h
  rcases l with _ | ⟨c, l⟩
  · simp at h
  rcases l with _ | ⟨d, l⟩
  · simp at h
  rcases l with _ | ⟨e, l⟩
  · simp at h
  rcases l with _ | ⟨f, l⟩
  · exact ⟨a, b, c, d, e, rfl⟩
  · simp at h

/-- The regex `([0-9]{5}).tif` matches at the head of
`d₁d₂d₃d₄d₅.tif⋯` and captures the five digits. -/
theorem matchAt_digits (a b c d e : Char) (rest : List Char)
    (ha : isDigitChar a = true) (hb : isDigitChar b = true)
    (hc : isDigitChar c = true) (hd : isDigitChar d = true)
    (he : isDigitChar e = true) :
    matchAt (a :: b :: c :: d :: e :: '.' :: 't' :: 'i' :: 'f' :: rest) =
      some (digitsVal [a, b, c, d, e]) := by
  have hv : digitsVal [a, b, c, d, e] =
      (((digitVal a * 10 + digitVal b) * 10 + digitVal c) * 10 +
        digitVal d) * 10 + digitVal e := by
    simp [digitsVal, List.foldl_cons]
  rw [matchAt, if_pos (by simp [ha, hb, hc, hd, he]), hv]

/-- `filename_to_number` recovers `n ≤ 99999` from `tile_fname n`. -/
theorem filename_to_number_tile_fname (n : ℕ) (h : n ≤ 99999) :
    filename_to_number (tile_fname n) = some n := by
  obtain ⟨hlen, hval, hdig⟩ := zfill5_spec n h
  obtain ⟨a, b, c, d, e, heq⟩ := exists_five _ hlen
  have ha := hdig a (by rw [heq]; simp)
  have hb := hdig b (by rw [heq]; simp)
  have hc := hdig c (by rw [heq]; simp)
  have hd := hdig d (by rw [heq]; simp)
  have he := hdig e (by rw [heq]; simp)
  have hfname : tile_fname n =
      a :: b :: c :: d :: e :: '.' :: 't' :: 'i' :: 'f' :: [] := by
    rw [tile_fname, heq]
    rfl
  have hm := matchAt_digits a b c d e [] ha hb hc hd he
  have hv : digitsVal [a, b, c, d, e] = n := by
    rw [← heq, hval]
  rw [filename_to_number, hfname, reSearch, hm, hv]

/-- C9: for every tile number `1 ≤ n ≤ 99999`, converting to the 5-digit
zero-padded file name and parsing the number back is the identity:
`filename_to_number (tile_fname n) = n`. -/
theorem C9_tile_fname_roundtrip :
    ∀ n : ℕ, 1 ≤ n → n ≤ 99999 →
      filename_to_number (tile_fname n) = some n :=
  fun n _ h2 => filename_to_number_tile_fname n h2

/-- C9 witness: the name of tile 123 parses back to 123. -/
theorem C9_witness : filename_to_number (tile_fname 123) = some 123 :=
  C9_tile_fname_roundtrip 123 (by norm_num) (by norm_num)

/-! ### Helper lemmas about the report-line parser -/

/-- `pySplit` always yields at least one part. -/
theorem pySplit_ne_nil (sep : Char) (l : List Char) : pySplit sep l ≠ [] := by
  induction l with
  | nil => simp [pySplit]
  | cons c t ih =>
    rcases hsp : pySplit sep t with _ | ⟨hh, rr⟩
    · exact absurd hsp ih
    · rw [pySplit, hsp]
      by_cases hcs : c = sep <;> simp [hcs]

/-- Splitting a string that does not contain the separator yields the whole
string as the unique part. -/
theorem pySplit_no_sep (sep : Char) (l : List Char) (h : sep ∉ l) :
    pySplit sep l = [l] := by
  induction l with
  | nil => rfl
  | cons c t ih =>
    have hc : ¬c = sep := fun e => h (e ▸ List.mem_cons_self c t)
    have ht : sep ∉ t := fun m => h (List.mem_cons_of_mem c m)
    rw [pySplit, ih ht]
    simp [hc]

/-- Splitting peels off a separator-free prefix as the first part. -/
theorem pySplit_append_sep (sep : Char) (l1 l2 : List Char) (h : sep ∉ l1) :
    pySplit sep (l1 ++ sep :: l2) = l1 :: pySplit sep l2 := by
  induction l1 with
  | nil =>
    obtain ⟨hh, rr, hcons⟩ := List.exists_cons_of_ne_nil (pySplit_ne_nil sep l2)
    rw [List.nil_append, pySplit, hcons]
    simp
  | cons c t ih =>
    have hc : ¬c = sep := fun e => h (e ▸ List.mem_cons_self c t)
    have ht : sep ∉ t := fun m => h (List.mem_cons_of_mem c m)
    rw [List.cons_append, pySplit, ih ht]
    simp [hc]

/-- `dropWhile` is the identity when the head fails the predicate. -/
theorem dropWhile_head_false (p : Char → Bool) (l : List Char)
    (h : ∀ c, l.head? = some c → p c = false) : l.dropWhile p = l := by
  match l with
  | [] => rfl
  | a :: t =>
    rw [List.dropWhile_cons, h a rfl]
    simp

/-- `dropWhile` is the identity on a list with no satisfying member. -/
theorem dropWhile_forall_false (p : Char → Bool) (l : List Char)
    (h : ∀ c ∈ l, p c = false) : l.dropWhile p = l := by
  induction l with
  | nil => rfl
  | cons a t _ =>
    rw [List.dropWhile_cons, h a (List.mem_cons_self a t)]
    simp

/-- `strip` is the identity when both ends are not whitespace. -/
theorem strip_eq_self (l : List Char)
    (h1 : ∀ c, l.head? = some c → isSpaceChar c = false)
    (h2 : ∀ c, l.getLast? = some c → isSpaceChar c = false) : strip l = l := by
  match l with
  | [] => rfl
  | a :: t =>
    have hd : (a :: t).dropWhile isSpaceChar = a :: t :=
      dropWhile_head_false _ _ (by simpa using h1)
    rw [strip, hd]
    rcases hrev : (a :: t).reverse with _ | ⟨b, rt⟩
    · exact absurd (congrArg List.length hrev) (by simp)
    · have hb : (a :: t).getLast? = some b := by
        rw [← List.head?_reverse, hrev]
        rfl
      have hbs : isSpaceChar b = false := h2 b hb
      have hdrop : List.dropWhile isSpaceChar (b :: rt) = b :: rt := by
        apply dropWhile_head_false
        intro c hcc
        have hb' : b = c := by simpa using hcc
        rw [← hb']
        exact hbs
      rw [hdrop, ← hrev, List.reverse_reverse]

/-- `strip` is the identity on a list of non-whitespace characters. -/
theorem strip_forall_nonspace (l : List Char)
    (h : ∀ c ∈ l, isSpaceChar c = false) : strip l = l := by
  rw [strip, dropWhile_forall_false _ _ h,
    dropWhile_forall_false _ _ (fun c hc => h c (List.mem_reverse.mp hc)),
    List.reverse_reverse]

/-- `strip` swallows one leading blank. -/
theorem strip_space_cons (l : List Char) : strip (' ' :: l) = strip l := by
  rw [strip, strip, List.dropWhile_cons]
  simp only [show isSpaceChar ' ' = true from rfl, if_true]

/-- A digit character differs from any non-digit character. -/
theorem digit_ne_char (c d : Char) (h : isDigitChar c = true)
    (hd : isDigitChar d = false) : c ≠ d := by
  intro e
  rw [e, hd] at h
  exact Bool.false_ne_true h

/-- A digit character is not whitespace. -/
theorem digit_nonspace (c : Char) (h : isDigitChar c = true) :
    isSpaceChar c = false := by
  cases hs : isSpaceChar c
  · rfl
  · exfalso
    have hs' := (by simpa [isSpaceChar] using hs :
      ((c = ' ' ∨ c = '\t') ∨ c = '\n') ∨ c = '\r')
    rcases hs' with ((rfl | rfl) | rfl) | rfl <;> exact absurd h (by decide)

/-- Every character of a tile filename is neither `';'`, `':'` nor
whitespace. -/
theorem tile_fname_chars (n : ℕ) (h : n ≤ 99999) :
    ∀ c ∈ tile_fname n, c ≠ ';' ∧ c ≠ ':' ∧ isSpaceChar c = false := by
  intro c hc
  rw [tile_fname] at hc
  rcases List.mem_append.mp hc with hc | hc
  · have hd := (zfill5_spec n h).2.2 c hc
    exact ⟨digit_ne_char c ';' hd (by decide), digit_ne_char c ':' hd (by decide),
      digit_nonspace c hd⟩
  · have : c = '.' ∨ c = 't' ∨ c = 'i' ∨ c = 'f' := by
      simpa [tifExtension] using hc
    rcases this with rfl | rfl | rfl | rfl <;>
      exact ⟨by decide, by decide, by decide⟩

/-- Every character of a printed integer is a digit or the minus sign. -/
theorem intChars_chars (i : ℤ) :
    ∀ c ∈ intChars i, isDigitChar c = true ∨ c = '-' := by
  intro c hc
  rw [intChars] at hc
  by_cases hneg : i < 0
  · rw [if_pos hneg] at hc
    rcases List.mem_cons.mp hc with rfl | hc
    · exact Or.inr rfl
    · exact Or.inl ((natChars_spec i.natAbs).2.2 c hc)
  · rw [if_neg hneg] at hc
    exact Or.inl ((natChars_spec i.natAbs).2.2 c hc)

/-- Every character of a printed integer is neither `';'`, `':'` nor
whitespace. -/
theorem intChars_clean (i : ℤ) :
    ∀ c ∈ intChars i, c ≠ ';' ∧ c ≠ ':' ∧ isSpaceChar c = false := by
  intro c hc
  rcases intChars_chars i c hc with hd | rfl
  · exact ⟨digit_ne_char c ';' hd (by decide), digit_ne_char c ':' hd (by decide),
      digit_nonspace c hd⟩
  · exact ⟨by decide, by decide, by decide⟩

/-- Every character of a rendered tuple is neither `';'`, `':'` nor a
leading-relevant blank only the interior comma region contains spaces. -/
theorem tupleRender_clean (x y : ℤ) :
    ∀ c ∈ tupleRender x y, c ≠ ';' ∧ c ≠ ':' := by
  intro c hc
  rw [tupleRender] at hc
  rcases List.mem_cons.mp hc with rfl | hc
  · exact ⟨by decide, by decide⟩
  rcases List.mem_append.mp hc with hc | hc
  · rcases List.mem_append.mp hc with hc | hc
    · rcases List.mem_append.mp hc with hc | hc
      · exact ⟨(intChars_clean x c hc).1, (intChars_clean x c hc).2.1⟩
      · have : c = ',' ∨ c = ' ' := by simpa using hc
        rcases this with rfl | rfl <;> exact ⟨by decide, by decide⟩
    · exact ⟨(intChars_clean y c hc).1, (intChars_clean y c hc).2.1⟩
  · have : c = ')' := by simpa using hc
    subst this
    exact ⟨by decide, by decide⟩

/-- `takeWhile` and `dropWhile` split an all-true prefix from a rest whose
head fails the predicate. -/
theorem takeWhile_dropWhile_append (p : Char → Bool) (l r : List Char)
    (hl : ∀ c ∈ l, p c = true) (hr : ∀ c, r.head? = some c → p c = false) :
    (l ++ r).takeWhile p = l ∧ (l ++ r).dropWhile p = r := by
  induction l with
  | nil =>
    simp only [List.nil_append]
    constructor
    · match r with
      | [] => rfl
      | a :: t =>
        rw [List.takeWhile_cons, hr a rfl]
        simp
    · exact dropWhile_head_false p r hr
  | cons a t ih =>
    have ha : p a = true := hl a (List.mem_cons_self a t)
    obtain ⟨iht, ihd⟩ := ih (fun c hc => hl c (List.mem_cons_of_mem a hc))
    constructor
    · rw [List.cons_append, List.takeWhile_cons, ha]
      simp only [if_true]
      rw [iht]
    · rw [List.cons_append, List.dropWhile_cons, ha]
      simp only [if_true]
      rw [ihd]

/-- `parseNatPart` reads exactly a digit string followed by a non-digit. -/
theorem parseNatPart_digits (l r : List Char)
    (hl : ∀ c ∈ l, isDigitChar c = true) (hne : l ≠ [])
    (hr : ∀ c, r.head? = some c → isDigitChar c = false) :
    parseNatPart (l ++ r) = some (digitsVal l, r) := by
  obtain ⟨ht, hd⟩ := takeWhile_dropWhile_append isDigitChar l r hl hr
  rw [parseNatPart]
  simp only [ht, hd, if_neg hne]

/-- `parseInt` reads back exactly the integer printed by `intChars`. -/
theorem parseInt_intChars (i : ℤ) (r : List Char)
    (hr : ∀ c, r.head? = some c → isDigitChar c = false) :
    parseInt (intChars i ++ r) = some (i, r) := by
  obtain ⟨hv, hne, hd⟩ := natChars_spec i.natAbs
  by_cases hneg : i < 0
  · rw [intChars, if_pos hneg, List.cons_append, parseInt]
    have hstep := parseNatPart_digits (natChars i.natAbs) r hd hne hr
    have habs : -(i.natAbs : ℤ) = i := by omega
    simp [hstep, hv, habs, abs_of_neg hneg]
  · rw [intChars, if_neg hneg]
    obtain ⟨a0, s0, h0⟩ := List.exists_cons_of_ne_nil hne
    have ha0 : isDigitChar a0 = true := hd a0 (h0 ▸ List.mem_cons_self a0 s0)
    have hnm : ¬a0 = '-' := digit_ne_char a0 '-' ha0 (by decide)
    have hstep := parseNatPart_digits (natChars i.natAbs) r hd hne hr
    have habs : (i.natAbs : ℤ) = i := by omega
    rw [h0, List.cons_append, parseInt, if_neg hnm, ← List.cons_append, ← h0]
    simp [hstep, hv, habs]

/-- A printed integer is never the empty string. -/
theorem intChars_ne_nil (i : ℤ) : intChars i ≠ [] := by
  rw [intChars]
  by_cases hneg : i < 0
  · simp [hneg]
  · simp only [if_neg hneg]
    exact (natChars_spec i.natAbs).2.1

/-- A single leading blank is consumed by `dropWhile` when the next
character is not whitespace. -/
theorem dropWhile_space_cons (l : List Char)
    (h : ∀ c, l.head? = some c → isSpaceChar c = false) :
    List.dropWhile isSpaceChar (' ' :: l) = l := by
  rw [List.dropWhile_cons]
  simp only [show isSpaceChar ' ' = true from rfl, if_true]
  exact dropWhile_head_false isSpaceChar l h

/-- `parseTuple` reads back exactly the pair printed as `(x, y)`. -/
theorem parseTuple_tupleRender (x y : ℤ) :
    parseTuple (tupleRender x y) = some (x, y) := by
  obtain ⟨a0, s0, h0⟩ := List.exists_cons_of_ne_nil (intChars_ne_nil x)
  have ha0 : isSpaceChar a0 = false :=
    (intChars_clean x a0 (h0 ▸ List.mem_cons_self a0 s0)).2.2
  obtain ⟨b0, t0, hb0⟩ := List.exists_cons_of_ne_nil (intChars_ne_nil y)
  have hby : isSpaceChar b0 = false :=
    (intChars_clean y b0 (hb0 ▸ List.mem_cons_self b0 t0)).2.2
  have e2 : List.dropWhile isSpaceChar
      (intChars x ++ (',' :: ' ' :: (intChars y ++ [')']))) =
      intChars x ++ (',' :: ' ' :: (intChars y ++ [')'])) := by
    apply dropWhile_head_false
    intro c hcc
    rw [h0, List.cons_append] at hcc
    have ha' : a0 = c := by simpa using hcc
    rw [← ha']
    exact ha0
  have e3 : parseInt (intChars x ++ (',' :: ' ' :: (intChars y ++ [')']))) =
      some (x, ',' :: ' ' :: (intChars y ++ [')'])) :=
    parseInt_intChars x _ (fun c hcc => by
      have h' : ',' = c := by simpa using hcc
      rw [← h']
      decide)
  have e6 : List.dropWhile isSpaceChar (' ' :: (intChars y ++ [')'])) =
      intChars y ++ [')'] :=
    dropWhile_space_cons _ (fun c hcc => by
      rw [hb0, List.cons_append] at hcc
      have h' : b0 = c := by simpa using hcc
      rw [← h']
      exact hby)
  have e7 : parseInt (intChars y ++ [')']) = some (y, [')']) :=
    parseInt_intChars y _ (fun c hcc => by
      have h' : ')' = c := by simpa using hcc
      rw [← h']
      decide)
  have e4 : List.dropWhile isSpaceChar (',' :: ' ' :: (intChars y ++ [')'])) =
      ',' :: ' ' :: (intChars y ++ [')']) :=
    dropWhile_head_false _ _ (fun c hcc => by
      have h' : ',' = c := by simpa using hcc
      rw [← h']
      decide)
  have e8 : List.dropWhile isSpaceChar [')'] = [')'] := by decide
  simp [parseTuple, tupleRender, expectChar, e2, e3, e4, e6, e7, e8]

/-- `from_colon_format` extracts the stripped filename from the
`file:` field. -/
theorem fcf_fileField (n : ℕ) (hn : n ≤ 99999) :
    from_colon_format (fileField n) = some (tile_fname n) := by
  have hpre : (':' : Char) ∉ (['f', 'i', 'l', 'e'] : List Char) := by decide
  have hsuf : (':' : Char) ∉ (' ' :: tile_fname n) := by
    intro hmem
    rcases List.mem_cons.mp hmem with h' | h'
    · exact absurd h' (by decide)
    · exact (tile_fname_chars n hn ':' h').2.1 rfl
  have hsh : fileField n = ['f', 'i', 'l', 'e'] ++ ':' :: (' ' :: tile_fname n) := rfl
  have hns : ∀ c ∈ tile_fname n, isSpaceChar c = false :=
    fun c hc => (tile_fname_chars n hn c hc).2.2
  rw [from_colon_format, hsh, pySplit_append_sep ':' _ _ hpre,
    pySplit_no_sep ':' _ hsuf]
  simp [strip_space_cons, strip_forall_nonspace _ hns]

/-- `from_colon_format` extracts the stripped tuple text from the
`position:` field. -/
theorem fcf_posField (x y : ℤ) :
    from_colon_format (posField x y) = some (tupleRender x y) := by
  have hpre : (':' : Char) ∉
      ([' ', 'p', 'o', 's', 'i', 't', 'i', 'o', 'n'] : List Char) := by decide
  have hsuf : (':' : Char) ∉ (' ' :: tupleRender x y) := by
    intro hmem
    rcases List.mem_cons.mp hmem with h' | h'
    · exact absurd h' (by decide)
    · exact (tupleRender_clean x y ':' h').2 rfl
  have hsh : posField x y =
      [' ', 'p', 'o', 's', 'i', 't', 'i', 'o', 'n'] ++
        ':' :: (' ' :: tupleRender x y) := rfl
  have hstrip : strip (tupleRender x y) = tupleRender x y := by
    apply strip_eq_self
    · intro c hcc
      have h' : '(' = c := by simpa [tupleRender] using hcc
      rw [← h']
      decide
    · intro c hcc
      have hlast : (tupleRender x y).getLast? = some ')' := by
        have hsh2 : tupleRender x y =
            ('(' :: (intChars x ++ [',', ' '] ++ intChars y)) ++ [')'] := by
          simp [tupleRender]
        rw [hsh2]
        exact List.getLast?_concat _
      rw [hlast] at hcc
      have h' : (')' : Char) = c := by simpa using hcc
      rw [← h']
      decide
  rw [from_colon_format, hsh, pySplit_append_sep ':' _ _ hpre,
    pySplit_no_sep ':' _ hsuf]
  simp [strip_space_cons, hstrip]

/-- No semicolon occurs in the `file:` field. -/
theorem fileField_no_semi (n : ℕ) (hn : n ≤ 99999) :
    (';' : Char) ∉ fileField n := by
  intro hmem
  rw [fileField] at hmem
  rcases List.mem_append.mp hmem with h' | h'
  · exact absurd h' (by decide)
  · exact (tile_fname_chars n hn ';' h').1 rfl

/-- No semicolon occurs in the `correlation:` field when the correlation
text itself is semicolon-free. -/
theorem corrField_no_semi (c : List Char) (hc : (';' : Char) ∉ c) :
    (';' : Char) ∉ corrField c := by
  intro hmem
  rw [corrField] at hmem
  rcases List.mem_append.mp hmem with h' | h'
  · exact absurd h' (by decide)
  · exact hc h'

/-- No semicolon occurs in the `position:` field. -/
theorem posField_no_semi (x y : ℤ) : (';' : Char) ∉ posField x y := by
  intro hmem
  rw [posField] at hmem
  rcases List.mem_append.mp hmem with h' | h'
  · exact absurd h' (by decide)
  · exact (tupleRender_clean x y ';' h').1 rfl

/-- A rendered report line is already stripped. -/
theorem strip_renderLine (r : PosRecord) : strip (renderLine r) = renderLine r := by
  apply strip_eq_self
  · intro c hcc
    have h' : 'f' = c := by
      have : (renderLine r).head? = some 'f' := rfl
      rw [this] at hcc
      simpa using hcc
    rw [← h']
    decide
  · intro c hcc
    have hlast : (renderLine r).getLast? = some ';' := by
      have hsh : renderLine r =
          (fileField r.num ++ ';' :: (corrField r.corr ++ ';' ::
            (posField r.x r.y ++ ';' :: gridField r.gr r.gc))) ++ [';'] := by
        simp [renderLine, List.append_assoc]
      rw [hsh]
      exact List.getLast?_concat _
    rw [hlast] at hcc
    have h' : (';' : Char) = c := by simpa using hcc
    rw [← h']
    decide

/-- The semicolon split of a rendered report line. -/
theorem pySplit_renderLine (r : PosRecord) (hn : r.num ≤ 99999)
    (hc : (';' : Char) ∉ r.corr) :
    pySplit ';' (renderLine r) =
      fileField r.num :: corrField r.corr :: posField r.x r.y ::
        pySplit ';' (gridField r.gr r.gc ++ [';']) := by
  rw [renderLine, pySplit_append_sep ';' _ _ (fileField_no_semi r.num hn),
    pySplit_append_sep ';' _ _ (corrField_no_semi r.corr hc),
    pySplit_append_sep ';' _ _ (posField_no_semi r.x r.y)]

/-- The parser recovers tile number and position from a rendered line. -/
theorem parseLine_renderLine (r : PosRecord) (hn : r.num ≤ 99999)
    (hc : (';' : Char) ∉ r.corr) :
    parseLine (renderLine r) = some (r.num, r.x, r.y) := by
  simp [parseLine, strip_renderLine r, pySplit_renderLine r hn hc,
    fcf_fileField r.num hn, filename_to_number_tile_fname r.num hn,
    fcf_posField, parseTuple_tupleRender]

/-- `find?` over the overwrite-map of `dictUpsert`. -/
theorem find_map_replace (k k' : ℕ) (v : ℤ × ℤ) (d : List (ℕ × ℤ × ℤ)) :
    (d.map (fun p => if p.1 = k then (k, v) else p)).find?
        (fun p => p.1 = k') =
      if k' = k then (if d.any (fun p => p.1 = k) then some (k, v) else none)
      else d.find? (fun p => p.1 = k') := by
  induction d with
  | nil => by_cases hk' : k' = k <;> simp [hk']
  | cons p t ih =>
    by_cases hp : p.1 = k
    · rw [List.map_cons, if_pos hp]
      by_cases hk' : k' = k
      · subst hk'
        have hanyT : (p :: t).any (fun q => q.1 = k') = true := by simp [hp]
        rw [@List.find?_cons_of_pos _ (fun q => decide (q.1 = k')) (k', v) _
          (by simp), if_pos rfl, if_pos hanyT]
      · have h2 : ¬((fun q : ℕ × ℤ × ℤ => decide (q.1 = k')) (k, v) = true) := by
          simp
          omega
        have h3 : ¬((fun q : ℕ × ℤ × ℤ => decide (q.1 = k')) p = true) := by
          simp
          omega
        rw [@List.find?_cons_of_neg _ (fun q => decide (q.1 = k')) (k, v) _ h2,
          ih, if_neg hk', if_neg hk',
          @List.find?_cons_of_neg _ (fun q => decide (q.1 = k')) p _ h3]
    · rw [List.map_cons, if_neg hp]
      by_cases hk' : k' = k
      · subst hk'
        have h3 : ¬((fun q : ℕ × ℤ × ℤ => decide (q.1 = k')) p = true) := by
          simp [hp]
        have hanyE : (p :: t).any (fun q => q.1 = k') =
            t.any (fun q => q.1 = k') := by
          simp [List.any_cons, hp]
        rw [@List.find?_cons_of_neg _ (fun q => decide (q.1 = k')) p _ h3,
          ih, if_pos rfl, if_pos rfl, hanyE]
      · by_cases hpk' : p.1 = k'
        · have h4 : ((fun q : ℕ × ℤ × ℤ => decide (q.1 = k')) p = true) := by
            simp [hpk']
          rw [@List.find?_cons_of_pos _ (fun q => decide (q.1 = k')) p _ h4,
            if_neg hk',
            @List.find?_cons_of_pos _ (fun q => decide (q.1 = k')) p _ h4]
        · have h4 : ¬((fun q : ℕ × ℤ × ℤ => decide (q.1 = k')) p = true) := by
            simp [hpk']
          rw [@List.find?_cons_of_neg _ (fun q => decide (q.1 = k')) p _ h4,
            ih, if_neg hk',
            @List.find?_cons_of_neg _ (fun q => decide (q.1 = k')) p _ h4]
          simp [hk']

/-- Lookup after a Python `dict` assignment: the assigned key maps to the
new value, other keys are untouched. -/
theorem dictGet_upsert (k k' : ℕ) (v : ℤ × ℤ) (d : List (ℕ × ℤ × ℤ)) :
    dictGet k' (dictUpsert k v d) = if k' = k then some v else dictGet k' d := by
  rw [dictUpsert, dictGet]
  by_cases hany : d.any (fun p => p.1 = k)
  · rw [if_pos hany, find_map_replace k k' v d]
    by_cases hk' : k' = k
    · rw [if_pos hk', if_pos hany, if_pos hk']
      rfl
    · rw [if_neg hk', if_neg hk', dictGet]
  · rw [if_neg hany, List.find?_append]
    by_cases hk' : k' = k
    · subst hk'
      have hnone : d.find? (fun p => decide (p.1 = k')) = none := by
        rw [List.find?_eq_none]
        intro x hx
        simp only [List.any_eq_true, not_exists] at hany
        simp only [decide_eq_true_eq]
        intro hcontra
        exact hany x ⟨hx, by simp [hcontra]⟩
      rw [hnone, if_pos rfl]
      simp [List.find?_cons]
    · have h1 : ([(k, v)] : List (ℕ × ℤ × ℤ)).find?
          (fun p => decide (p.1 = k')) = none := by
        rw [List.find?_eq_none]
        intro x hx
        simp only [List.mem_singleton] at hx
        subst hx
        simp only [decide_eq_true_eq]
        omega
      rw [h1, Option.or_none, if_neg hk', dictGet]

/-- Folding a rendered report never raises: each line parses. -/
theorem extract_fold_some :
    ∀ (recs : List PosRecord) (d : List (ℕ × ℤ × ℤ)),
      (∀ r ∈ recs, r.num ≤ 99999) → (∀ r ∈ recs, (';' : Char) ∉ r.corr) →
      ∃ dfin, List.foldlM
        (fun d line => (parseLine line).map (fun p => dictUpsert p.1 p.2 d)) d
        (recs.map renderLine) = some dfin := by
  intro recs
  induction recs with
  | nil => exact fun d _ _ => ⟨d, rfl⟩
  | cons r rest ih =>
    intro d hn hc
    have hline := parseLine_renderLine r (hn r (List.mem_cons_self r rest))
      (hc r (List.mem_cons_self r rest))
    obtain ⟨dfin, hfin⟩ := ih (dictUpsert r.num (r.x, r.y) d)
      (fun q hq => hn q (List.mem_cons_of_mem r hq))
      (fun q hq => hc q (List.mem_cons_of_mem r hq))
    exact ⟨dfin, by simp [hline, hfin]⟩

/-- Folding a rendered report with pairwise-distinct tile numbers builds the
dictionary mapping each number to its position. -/
theorem extract_fold_nodup :
    ∀ (recs : List PosRecord) (d : List (ℕ × ℤ × ℤ)),
      (∀ r ∈ recs, r.num ≤ 99999) → (∀ r ∈ recs, (';' : Char) ∉ r.corr) →
      (recs.map (fun r => r.num)).Nodup →
      ∃ dfin, List.foldlM
        (fun d line => (parseLine line).map (fun p => dictUpsert p.1 p.2 d)) d
        (recs.map renderLine) = some dfin ∧
        (∀ r ∈ recs, dictGet r.num dfin = some (r.x, r.y)) ∧
        (∀ k, k ∉ recs.map (fun r => r.num) → dictGet k dfin = dictGet k d) := by
  intro recs
  induction recs with
  | nil => exact fun d _ _ _ => ⟨d, rfl, by simp, fun k _ => rfl⟩
  | cons r rest ih =>
    intro d hn hc hnd
    have hline := parseLine_renderLine r (hn r (List.mem_cons_self r rest))
      (hc r (List.mem_cons_self r rest))
    rw [List.map_cons, List.nodup_cons] at hnd
    obtain ⟨dfin, hfin, hmem, hout⟩ := ih (dictUpsert r.num (r.x, r.y) d)
      (fun q hq => hn q (List.mem_cons_of_mem r hq))
      (fun q hq => hc q (List.mem_cons_of_mem r hq)) hnd.2
    refine ⟨dfin, by simp [hline, hfin], ?_, ?_⟩
    · intro q hq
      rcases List.mem_cons.mp hq with rfl | hq
      · rw [hout q.num hnd.1, dictGet_upsert, if_pos rfl]
      · exact hmem q hq
    · intro k hk
      rw [List.map_cons, List.mem_cons] at hk
      push_neg at hk
      rw [hout k hk.2, dictGet_upsert, if_neg hk.1]

/-- C5: a well-formed positions report — one line per record in the exact
MIST format, 5-digit zero-padded tile names, distinct tile numbers —
parses without error, and the resulting corner dictionary maps every
record's tile number to its position. -/
theorem C5_report_roundtrip :
    ∀ recs : List PosRecord,
      (∀ r ∈ recs, r.num ≤ 99999) →
      (∀ r ∈ recs, (';' : Char) ∉ r.corr) →
      (recs.map (fun r => r.num)).Nodup →
      (extract_corners (recs.map renderLine)).isSome = true ∧
      ∀ r ∈ recs, corner_of (recs.map renderLine) r.num = some (r.x, r.y) := by
  intro recs hn hc hnd
  obtain ⟨dfin, hfin, hmem, _⟩ := extract_fold_nodup recs [] hn hc hnd
  have hext : extract_corners (recs.map renderLine) = some dfin := hfin
  constructor
  · rw [hext]
    rfl
  · intro r hr
    rw [corner_of, hext]
    simpa using hmem r hr

/-- C5 witness: the two-line report for tiles 00001 and 00002 at positions
`(0, 0)` and `(256, 0)` parses to the mapping `{1 ↦ (0,0), 2 ↦ (256,0)}`;
here tile 2's corner is read back. -/
theorem C5_witness :
    corner_of (List.map renderLine
      [⟨1, ['0', '.', '9'], 0, 0, 0, 0⟩, ⟨2, ['0', '.', '8'], 256, 0, 0, 1⟩]) 2 =
      some (256, 0) :=
  (C5_report_roundtrip
    [⟨1, ['0', '.', '9'], 0, 0, 0, 0⟩, ⟨2, ['0', '.', '8'], 256, 0, 0, 1⟩]
    (by decide) (by decide) (by decide)).2
    ⟨2, ['0', '.', '8'], 256, 0, 0, 1⟩ (by decide)

/-- C7 (amended): the report parser of `stitch` raises a generic error —
there is no `StitchingFailure` type in the code — exactly on malformed
records (missing fields, unparsable position tuple); duplicate tile numbers
are accepted silently with the last occurrence overwriting earlier ones,
and every well-formed report (duplicates included) parses successfully.
The external program's exit status is never checked. -/
theorem C7_extract_corners_error_behavior :
    (∀ (recs : List PosRecord) (r : PosRecord),
      (∀ q ∈ recs ++ [r], q.num ≤ 99999) →
      (∀ q ∈ recs ++ [r], (';' : Char) ∉ q.corr) →
      (extract_corners ((recs ++ [r]).map renderLine)).isSome = true ∧
      corner_of ((recs ++ [r]).map renderLine) r.num = some (r.x, r.y)) ∧
    extract_corners [['h', 'i']] = none ∧
    extract_corners [fileField 1 ++ ';' :: (corrField ['1'] ++ ';' ::
      ([' ', 'p', 'o', 's', 'i', 't', 'i', 'o', 'n', ':', ' ', '(', 'a', ')'] ++
        [';']))] = none := by
  refine ⟨?_, by decide, by decide⟩
  intro recs r hn hc
  obtain ⟨dmid, hmid⟩ := extract_fold_some recs []
    (fun q hq => hn q (List.mem_append_left _ hq))
    (fun q hq => hc q (List.mem_append_left _ hq))
  have hline := parseLine_renderLine r
    (hn r (List.mem_append_right _ (List.mem_singleton_self r)))
    (hc r (List.mem_append_right _ (List.mem_singleton_self r)))
  have hext : extract_corners ((recs ++ [r]).map renderLine) =
      some (dictUpsert r.num (r.x, r.y) dmid) := by
    rw [extract_corners, List.map_append, List.foldlM_append]
    rw [show List.foldlM
      (fun d line => (parseLine line).map (fun p => dictUpsert p.1 p.2 d)) []
      (recs.map renderLine) = some dmid from hmid]
    simp [hline]
  constructor
  · rw [hext]
    rfl
  · rw [corner_of, hext]
    simp [dictGet_upsert]

/-- C7 witness: a report whose two lines both carry tile number 1 still
parses successfully (no failure is raised for duplicate tile numbers), and
the duplicated number maps to the last listed position. -/
theorem C7_witness :
    (extract_corners ((([⟨1, ['1'], 0, 0, 0, 0⟩] : List PosRecord) ++
      ([⟨1, ['1'], 256, 0, 0, 1⟩] : List PosRecord)).map renderLine)).isSome = true ∧
    corner_of ((([⟨1, ['1'], 0, 0, 0, 0⟩] : List PosRecord) ++
      ([⟨1, ['1'], 256, 0, 0, 1⟩] : List PosRecord)).map renderLine) 1 =
      some (256, 0) :=
  C7_extract_corners_error_behavior.1 [⟨1, ['1'], 0, 0, 0, 0⟩]
    ⟨1, ['1'], 256, 0, 0, 1⟩ (by decide) (by decide)

/-- C7 counterexample: a positions report carrying tile number 00001 twice
is, per the claim, malformed and must fail with `StitchingFailure`; the
parser instead succeeds and silently keeps the last position. -/
theorem C7_counterexample :
    extract_corners [renderLine ⟨1, ['1'], 0, 0, 0, 0⟩,
      renderLine ⟨1, ['1'], 256, 0, 0, 1⟩] = some [(1, 256, 0)] := by
  decide
